import Mathlib

/-!
A verification development for the recursive extension-sorting script
`sort_by_ext.py`.  Filesystem paths are modelled as lists of components
(absolute, root = `[]`).  Path resolution (`Path.resolve`, which may fail)
is modelled as an abstract function `FsPath → Option FsPath`; the walker's
interaction with the filesystem is modelled by an explicit state: the list
of paths that currently exist, threaded through the traversal.  Enumeration
of a directory's children comes from a snapshot tree of the source
(`FsEntry`), with a `listable` flag modelling a failing `iterdir`, and an
`Oracle` modelling per-path `mkdir` / copy-move failures.
-/

namespace SortByExt

/-- A filesystem path: the list of components below the root. -/
abbrev FsPath := List String

/-- Little-endian decimal digits of `n`, with explicit structural fuel
(`decDigits n` uses fuel `n`, which always suffices). -/
def decDigitsAux : Nat → Nat → List Nat
  | 0, _ => []
  | fuel + 1, n => if n = 0 then [] else n % 10 :: decDigitsAux fuel (n / 10)

/-- Little-endian decimal digits of `n`. -/
def decDigits (n : Nat) : List Nat := decDigitsAux n n

/-- The ASCII character of a decimal digit. -/
def digitChar (d : Nat) : Char := Char.ofNat (48 + d)

/-- Decimal rendering of a natural number, as Python's `str(n)`. -/
def natToDec (n : Nat) : String :=
  if n = 0 then "0" else String.mk (((decDigits n).map digitChar).reverse)

/-- Value of a little-endian decimal digit list (used to invert `decDigits`). -/
def decVal : List Nat → Nat
  | [] => 0
  | d :: ds => d + 10 * decVal ds

/-- Decimal reading of a string (left inverse of `natToDec`, used to show
the numbered candidate names are pairwise distinct). -/
def decToNat (s : String) : Nat :=
  decVal (s.data.reverse.map (fun c => c.toNat - 48))

/-- Python `PurePath.stem` and `PurePath.suffix` of a file name, computed
together.  CPython: `i = name.rfind('.')`; if `0 < i < len(name) - 1` the
suffix is `name[i:]` and the stem `name[:i]`, otherwise the suffix is empty
and the stem the whole name. -/
def pyStemSuffix (name : String) : String × String :=
  let cs := name.data
  let tail := (cs.reverse.takeWhile (fun c => c ≠ '.')).length
  if tail = cs.length then (name, "")
  else
    let i := cs.length - 1 - tail
    if 0 < i ∧ i < cs.length - 1 then (String.mk (cs.take i), String.mk (cs.drop i))
    else (name, "")

/-- Python `Path(name).stem`. -/
def pyStem (name : String) : String := (pyStemSuffix name).1

/-- Python `Path(name).suffix`. -/
def pySuffix (name : String) : String := (pyStemSuffix name).2

/-- Python `str.lower()` (ASCII case folding, as Lean's `Char.toLower`). -/
def lowerStr (s : String) : String := String.mk (s.data.map Char.toLower)

/-- The bucket name of line 80: `entry.suffix.lower().lstrip(".") if
entry.suffix else "_no_ext"`. -/
def extOf (name : String) : String :=
  let suffix := pySuffix name
  if suffix = "" then "_no_ext"
  else String.mk ((suffix.data.map Char.toLower).dropWhile (fun c => c = '.'))

/-- Python `PurePath.parents` of a resolved (absolute) path: all proper
prefixes, down to the root `[]`. -/
def pathParents (p : FsPath) : List FsPath :=
  (List.range p.length).map (fun i => p.take i)

/-- `is_subpath` of the script: resolve both paths, return whether the
resolved parent is among the resolved child's parents or equal to it;
a failed resolution (modelled by `none`) yields `false`. -/
def is_subpath (resolve : FsPath → Option FsPath) (child parent : FsPath) : Bool :=
  match resolve child, resolve parent with
  | some child_r, some parent_r =>
      decide (parent_r ∈ pathParents child_r) || decide (child_r = parent_r)
  | _, _ => false

/-- The specification-side reading of nesting: both paths resolve and the
resolved reference is an ancestor of (or equal to) the resolved candidate. -/
def resolvedWithin (resolve : FsPath → Option FsPath) (child parent : FsPath) : Prop :=
  ∃ c p, resolve child = some c ∧ resolve parent = some p ∧ p <+: c

/-- The `k`-th candidate name tried by `unique_target_path`:
`base ++ suffix` first, then `base ++ " (k)" ++ suffix`. -/
def candName (base suffix : String) : Nat → String
  | 0 => base ++ suffix
  | k + 1 => base ++ " (" ++ natToDec (k + 1) ++ ")" ++ suffix

/-- The `k`-th candidate path tried by `unique_target_path`. -/
def candPath (target_dir : FsPath) (base suffix : String) (k : Nat) : FsPath :=
  target_dir ++ [candName base suffix k]

/-- `unique_target_path` of the script.  The source's `while candidate.exists()`
loop returns the first candidate not present; since the candidates are
pairwise distinct paths, the loop exits after at most `existing.length`
failed probes, so the bounded first-hit search below is its exact value
(the fallback arm is unreachable, see `unique_target_path_find_isSome`). -/
def unique_target_path (existing : List FsPath) (target_dir : FsPath) (name : String) : FsPath :=
  let base := pyStem name
  let suffix := pySuffix name
  match (List.range (existing.length + 1)).find?
      (fun k => !(decide (candPath target_dir base suffix k ∈ existing))) with
  | some k => candPath target_dir base suffix k
  | none => candPath target_dir base suffix (existing.length + 1)

/-- A snapshot of a directory's entry list (the `entries` of line 67), with
the remaining entries chained into each constructor so that the whole source
tree is one plain inductive value.  A `dir`'s `listable` flag is `false`
when `list(entry.iterdir())` would raise for it; `other` stands for entries
that are neither regular files nor directories (line 106). -/
inductive Entries where
  | nil
  | file (name : String) (rest : Entries)
  | dir (name : String) (children : Entries) (listable : Bool) (rest : Entries)
  | other (name : String) (rest : Entries)

/-- Failure oracle for the effectful per-file steps: `mkdirFails` is keyed
by the bucket directory, `placeFails` (any of the three caught exception
classes of lines 97-105) by the source entry path. -/
structure Oracle where
  mkdirFails : FsPath → Bool
  placeFails : FsPath → Bool

/-- The all-succeeding oracle. -/
def cleanOracle : Oracle := ⟨fun _ => false, fun _ => false⟩

/-- Result of a walk: the two counters returned by `process_directory`,
the final filesystem-existence state, plus two ghost observations — the
directories whose enumeration was attempted, and the `(source, target)`
pairs of successful placements. -/
structure WalkResult where
  files : Nat
  errors : Nat
  st : List FsPath
  visited : List FsPath
  placed : List (FsPath × FsPath)

/-- The `for entry in entries` loop body of `process_directory` (lines
72-107), sequentially threading the existence state.  A subdirectory is
skipped when `is_subpath(entry, dest_root)`; otherwise it is processed
recursively (an unlistable one contributing `(0, 1)`, line 66-70).  A file
is routed to bucket `dest_root/extOf name`; `mkdir` failure or placement
failure each count one error; a successful placement registers the
collision-free target (and in move mode removes the source). -/
def walkEntries (O : Oracle) (resolve : FsPath → Option FsPath)
    (dest_root : FsPath) (move : Bool) :
    FsPath → Entries → List FsPath → WalkResult
  | _, Entries.nil, st => ⟨0, 0, st, [], []⟩
  | src_dir, Entries.other _ rest, st =>
      walkEntries O resolve dest_root move src_dir rest st
  | src_dir, Entries.dir name children listable rest, st =>
      let entryPath := src_dir ++ [name]
      if is_subpath resolve entryPath dest_root then
        walkEntries O resolve dest_root move src_dir rest st
      else
        let r1 := if listable then walkEntries O resolve dest_root move entryPath children st
                  else ⟨0, 1, st, [], []⟩
        let r2 := walkEntries O resolve dest_root move src_dir rest r1.st
        ⟨r1.files + r2.files, r1.errors + r2.errors, r2.st,
          entryPath :: (r1.visited ++ r2.visited), r1.placed ++ r2.placed⟩
  | src_dir, Entries.file name rest, st =>
      let entryPath := src_dir ++ [name]
      let ext := extOf name
      let target_dir := dest_root ++ [ext]
      if O.mkdirFails target_dir then
        let r2 := walkEntries O resolve dest_root move src_dir rest st
        ⟨r2.files, r2.errors + 1, r2.st, r2.visited, r2.placed⟩
      else
        let st1 := if target_dir ∈ st then st else st ++ [target_dir]
        let target := unique_target_path st1 target_dir name
        if O.placeFails entryPath then
          let r2 := walkEntries O resolve dest_root move src_dir rest st1
          ⟨r2.files, r2.errors + 1, r2.st, r2.visited, r2.placed⟩
        else
          let st2 := (if move then st1.filter (fun p => p ≠ entryPath) else st1) ++ [target]
          let r2 := walkEntries O resolve dest_root move src_dir rest st2
          ⟨r2.files + 1, r2.errors, r2.st, r2.visited, (entryPath, target) :: r2.placed⟩

/-- `process_directory` (lines 58-109): try to enumerate `src_dir` — on
failure report `(0, 1)` for the whole directory — then run the entry loop. -/
def process_directory (O : Oracle) (resolve : FsPath → Option FsPath)
    (dest_root : FsPath) (move : Bool) (src_dir : FsPath)
    (children : Entries) (listable : Bool) (st : List FsPath) : WalkResult :=
  if listable then
    let r := walkEntries O resolve dest_root move src_dir children st
    ⟨r.files, r.errors, r.st, src_dir :: r.visited, r.placed⟩
  else ⟨0, 1, st, [src_dir], []⟩

/-- `main` (lines 112-146): the precondition checks in source order, then
destination creation, the walk, and the exit code; paired with the final
existence state (unchanged on every fatal path). -/
def mainRun (srcExists srcIsDir mkdirDestFails : Bool) (O : Oracle)
    (resolve : FsPath → Option FsPath) (src dest : FsPath)
    (children : Entries) (listable : Bool) (move : Bool)
    (st : List FsPath) : Nat × List FsPath :=
  if srcExists = false then (2, st)
  else if srcIsDir = false then (2, st)
  else if is_subpath resolve src dest then (2, st)
  else if mkdirDestFails then (2, st)
  else
    let st1 := if dest ∈ st then st else st ++ [dest]
    let r := process_directory O resolve dest move src children listable st1
    (if r.errors = 0 then 0 else 1, r.st)

/-- Number of regular files in a snapshot subtree whose path does not lie
in the destination subtree (the count the specification promises). -/
def countFilesOutside (dest : FsPath) : FsPath → Entries → Nat
  | _, Entries.nil => 0
  | src_dir, Entries.file name rest =>
      (if dest.isPrefixOf (src_dir ++ [name]) then 0 else 1)
        + countFilesOutside dest src_dir rest
  | src_dir, Entries.dir name children _ rest =>
      countFilesOutside dest (src_dir ++ [name]) children
        + countFilesOutside dest src_dir rest
  | src_dir, Entries.other _ rest => countFilesOutside dest src_dir rest

/-- All regular-file paths in a snapshot subtree. -/
def filePathsIn : FsPath → Entries → List FsPath
  | _, Entries.nil => []
  | src_dir, Entries.file name rest =>
      (src_dir ++ [name]) :: filePathsIn src_dir rest
  | src_dir, Entries.dir name children _ rest =>
      filePathsIn (src_dir ++ [name]) children ++ filePathsIn src_dir rest
  | src_dir, Entries.other _ rest => filePathsIn src_dir rest

/-- Whether every directory of a snapshot subtree can be enumerated. -/
def allListable : Entries → Bool
  | Entries.nil => true
  | Entries.file _ rest => allListable rest
  | Entries.dir _ children listable rest =>
      listable && allListable children && allListable rest
  | Entries.other _ rest => allListable rest

/-! ### Path-guard lemmas -/

theorem mem_pathParents {p c : FsPath} : p ∈ pathParents c ↔ p <+: c ∧ p ≠ c := by
  simp only [pathParents, List.mem_map, List.mem_range]
  constructor
  · rintro ⟨i, hi, rfl⟩
    refine ⟨⟨c.drop i, c.take_append_drop i⟩, ?_⟩
    intro h
    have := congrArg List.length h
    simp at this
    omega
  · rintro ⟨hpre, hne⟩
    have hlen : p.length < c.length := by
      rcases Nat.lt_or_ge p.length c.length with h | h
      · exact h
      · exact absurd (hpre.eq_of_length (Nat.le_antisymm hpre.length_le h)) hne
    exact ⟨p.length, hlen, (List.prefix_iff_eq_take.mp hpre).symm⟩

/-- Claim C5: `is_subpath` returns `true` exactly when both paths resolve and
the resolved reference equals or is an ancestor of the resolved candidate;
in particular any resolution failure yields `false`, and the function is a
pure total function. -/
theorem is_subpath_iff_resolvedWithin (resolve : FsPath → Option FsPath)
    (child parent : FsPath) :
    is_subpath resolve child parent = true ↔ resolvedWithin resolve child parent := by
  unfold is_subpath resolvedWithin
  cases hc : resolve child with
  | none => simp [hc]
  | some c =>
    cases hp : resolve parent with
    | none => simp [hp]
    | some p =>
      simp only [hc, hp, Bool.or_eq_true, decide_eq_true_eq, Option.some.injEq]
      constructor
      · rintro (hmem | rfl)
        · exact ⟨c, p, rfl, rfl, (mem_pathParents.mp hmem).1⟩
        · exact ⟨c, c, rfl, rfl, List.prefix_refl c⟩
      · rintro ⟨c', p', hc', hp', hpre⟩
        cases hc'; cases hp'
        by_cases he : c = p
        · exact Or.inr he
        · exact Or.inl (mem_pathParents.mpr ⟨hpre, fun h => he h.symm⟩)

/-! ### Decimal rendering -/

theorem decVal_decDigitsAux : ∀ fuel n, n ≤ fuel → decVal (decDigitsAux fuel n) = n := by
  intro fuel
  induction fuel with
  | zero =>
    intro n h
    have : n = 0 := Nat.le_zero.mp h
    subst this
    rfl
  | succ fuel ih =>
    intro n h
    by_cases hn : n = 0
    · subst hn; simp [decDigitsAux, decVal]
    · have hdiv : n / 10 ≤ fuel := by
        have := Nat.div_lt_self (Nat.pos_of_ne_zero hn) (by norm_num : 1 < 10)
        omega
      simp only [decDigitsAux, hn, if_false, decVal, ih (n / 10) hdiv]
      omega

theorem decDigitsAux_lt_ten : ∀ fuel n d, d ∈ decDigitsAux fuel n → d < 10 := by
  intro fuel
  induction fuel with
  | zero => intro n d h; simp [decDigitsAux] at h
  | succ fuel ih =>
    intro n d h
    by_cases hn : n = 0
    · simp [decDigitsAux, hn] at h
    · simp only [decDigitsAux, hn, if_false, List.mem_cons] at h
      rcases h with h | h
      · subst h; exact Nat.mod_lt n (by norm_num)
      · exact ih _ _ h

theorem digitChar_toNat : ∀ d, d < 10 → (digitChar d).toNat = 48 + d := by decide

theorem decToNat_natToDec (n : Nat) : decToNat (natToDec n) = n := by
  by_cases hn : n = 0
  · subst hn; rfl
  · simp only [natToDec, hn, if_false, decToNat]
    have hmap : ((((decDigits n).map digitChar).reverse).reverse.map
        (fun c => c.toNat - 48)) = decDigits n := by
      rw [List.reverse_reverse, List.map_map]
      have : ∀ d ∈ decDigits n, ((fun c => c.toNat - 48) ∘ digitChar) d = d := by
        intro d hd
        have hlt : d < 10 := decDigitsAux_lt_ten n n d hd
        simp [Function.comp, digitChar_toNat d hlt]
      calc (decDigits n).map ((fun c => c.toNat - 48) ∘ digitChar)
          = (decDigits n).map id := List.map_congr_left this
        _ = decDigits n := List.map_id _
    show decVal ((((decDigits n).map digitChar).reverse).reverse.map
        (fun c => c.toNat - 48)) = n
    rw [hmap]
    exact decVal_decDigitsAux n n (Nat.le_refl n)

theorem natToDec_injective : Function.Injective natToDec := by
  intro m n h
  have := congrArg decToNat h
  rwa [decToNat_natToDec, decToNat_natToDec] at this

theorem natToDec_ne_empty (n : Nat) : (natToDec n).data ≠ [] := by
  by_cases hn : n = 0
  · subst hn; simp [natToDec]
  · simp only [natToDec, hn, if_false]
    intro h
    have hx : ((decDigits n).map digitChar).reverse = [] := h
    rw [List.reverse_eq_nil_iff] at hx
    have hd : decDigits n = [] := by
      cases hdd : decDigits n with
      | nil => rfl
      | cons a l => rw [hdd] at hx; simp at hx
    have hv : decVal (decDigits n) = n := decVal_decDigitsAux n n (Nat.le_refl n)
    rw [hd] at hv
    exact hn (by simpa [decVal] using hv.symm)

/-! ### Candidate names are pairwise distinct -/

theorem candName_injective (base suffix : String) :
    Function.Injective (candName base suffix) := by
  intro j k h
  have e1 : (" (" : String).data.length = 2 := rfl
  have e2 : ((")" : String)).data.length = 1 := rfl
  match j, k with
  | 0, 0 => rfl
  | 0, k + 1 =>
    exfalso
    have hlen := congrArg (fun s => s.data.length) h
    simp only [candName, String.data_append, List.length_append] at hlen
    have hne := natToDec_ne_empty (k + 1)
    have h0 : (natToDec (k + 1)).data.length ≠ 0 :=
      fun hz => hne (List.length_eq_zero.mp hz)
    omega
  | j + 1, 0 =>
    exfalso
    have hlen := congrArg (fun s => s.data.length) h
    simp only [candName, String.data_append, List.length_append] at hlen
    have hne := natToDec_ne_empty (j + 1)
    have h0 : (natToDec (j + 1)).data.length ≠ 0 :=
      fun hz => hne (List.length_eq_zero.mp hz)
    omega
  | j + 1, k + 1 =>
    have hdata := congrArg String.data h
    simp only [candName, String.data_append, List.append_assoc] at hdata
    have h1 := List.append_cancel_left hdata
    have h2 := List.append_cancel_left h1
    have hr : (natToDec (j + 1)).data = (natToDec (k + 1)).data :=
      List.append_cancel_right h2
    have hdec : decToNat (natToDec (j + 1)) = decToNat (natToDec (k + 1)) := by
      unfold decToNat; rw [hr]
    rwa [decToNat_natToDec, decToNat_natToDec] at hdec

theorem candPath_injective (dir : FsPath) (base suffix : String) :
    Function.Injective (candPath dir base suffix) := by
  intro j k h
  unfold candPath at h
  have := List.append_cancel_left h
  exact candName_injective base suffix (by injection this)

theorem exists_cand_notin (existing : List FsPath) (dir : FsPath) (base suffix : String) :
    ∃ k, k < existing.length + 1 ∧ candPath dir base suffix k ∉ existing := by
  by_contra hcon
  push_neg at hcon
  have hsub : ((List.range (existing.length + 1)).map (candPath dir base suffix)) ⊆ existing := by
    intro x hx
    rcases List.mem_map.mp hx with ⟨k, hk, rfl⟩
    exact hcon k (List.mem_range.mp hk)
  have hnd : ((List.range (existing.length + 1)).map (candPath dir base suffix)).Nodup :=
    (List.nodup_range _).map (candPath_injective dir base suffix)
  have := (hnd.subperm hsub).length_le
  simp at this

theorem find?_range'_eq_some (p : Nat → Bool) :
    ∀ (m s k : Nat), s ≤ k → k < s + m → p k = true →
      (∀ j, s ≤ j → j < k → p j = false) → (List.range' s m).find? p = some k := by
  intro m
  induction m with
  | zero => intro s k h1 h2; omega
  | succ m ih =>
    intro s k h1 h2 h3 h4
    rw [List.range'_succ]
    rcases Nat.eq_or_lt_of_le h1 with rfl | hlt
    · simp [List.find?_cons, h3]
    · have hps : p s = false := h4 s (Nat.le_refl s) hlt
      simp only [List.find?_cons, hps]
      exact ih (s + 1) k hlt (by omega) h3 (fun j hj1 hj2 => h4 j (by omega) hj2)

theorem unique_target_path_eq (existing : List FsPath) (target_dir : FsPath)
    (name : String) :
    unique_target_path existing target_dir name =
      match (List.range (existing.length + 1)).find?
          (fun k => !(decide (candPath target_dir (pyStem name) (pySuffix name) k
            ∈ existing))) with
      | some k => candPath target_dir (pyStem name) (pySuffix name) k
      | none => candPath target_dir (pyStem name) (pySuffix name)
          (existing.length + 1) := rfl

/-- Claim C2: `unique_target_path` returns the first candidate in the
sequence `stem ++ suffix`, `stem ++ " (1)" ++ suffix`, `stem ++ " (2)" ++
suffix`, … not present among the existing paths; in particular the returned
path is never an existing one, so no placement overwrites a file. -/
theorem unique_target_path_first_free (existing : List FsPath) (target_dir : FsPath)
    (name : String) (k : Nat)
    (hk : candPath target_dir (pyStem name) (pySuffix name) k ∉ existing)
    (hlt : ∀ j, j < k → candPath target_dir (pyStem name) (pySuffix name) j ∈ existing) :
    unique_target_path existing target_dir name =
        candPath target_dir (pyStem name) (pySuffix name) k ∧
      unique_target_path existing target_dir name ∉ existing := by
  have hkle : k < existing.length + 1 := by
    rcases exists_cand_notin existing target_dir (pyStem name) (pySuffix name) with
      ⟨k0, hk0lt, hk0notin⟩
    by_contra hcon
    exact hk0notin (hlt k0 (by omega))
  have hfind : (List.range (existing.length + 1)).find?
      (fun j => !(decide (candPath target_dir (pyStem name) (pySuffix name) j ∈ existing)))
        = some k := by
    rw [List.range_eq_range']
    refine find?_range'_eq_some _ _ 0 k (Nat.zero_le k) (by omega) (by simp [hk]) ?_
    intro j _ hj
    simp [hlt j hj]
  have heq : unique_target_path existing target_dir name =
      candPath target_dir (pyStem name) (pySuffix name) k := by
    rw [unique_target_path_eq, hfind]
  exact ⟨heq, heq ▸ hk⟩

theorem unique_target_path_first_free_witness :
    (candPath ["d"] (pyStem "a.txt") (pySuffix "a.txt") 2 ∉
        [["d", "a.txt"], ["d", "a (1).txt"]]) ∧
      (∀ j, j < 2 → candPath ["d"] (pyStem "a.txt") (pySuffix "a.txt") j ∈
        [["d", "a.txt"], ["d", "a (1).txt"]]) ∧
      (unique_target_path [["d", "a.txt"], ["d", "a (1).txt"]] ["d"] "a.txt" =
          candPath ["d"] (pyStem "a.txt") (pySuffix "a.txt") 2 ∧
        unique_target_path [["d", "a.txt"], ["d", "a (1).txt"]] ["d"] "a.txt" ∉
          [["d", "a.txt"], ["d", "a (1).txt"]]) :=
  ⟨by decide, by decide,
    unique_target_path_first_free [["d", "a.txt"], ["d", "a (1).txt"]] ["d"] "a.txt" 2
      (by decide) (by decide)⟩

/-! ### Stem / suffix splitting -/

theorem takeWhile_append_cons (p : Char → Bool) (l1 : List Char) (x : Char)
    (l2 : List Char) (h1 : ∀ c ∈ l1, p c = true) (hx : p x = false) :
    (l1 ++ x :: l2).takeWhile p = l1 := by
  induction l1 with
  | nil => simp [List.takeWhile_cons, hx]
  | cons a l ih =>
    have ha : p a = true := h1 a (List.mem_cons_self a l)
    simp only [List.cons_append, List.takeWhile_cons, ha, if_true]
    rw [ih (fun c hc => h1 c (List.mem_cons_of_mem a hc))]

theorem pyStemSuffix_split (s e : String) (hs : s.data ≠ []) (he : e.data ≠ [])
    (hd : '.' ∉ e.data) :
    pyStemSuffix (s ++ "." ++ e) = (s, "." ++ e) := by
  have hcs : (s ++ "." ++ e).data = s.data ++ ('.' :: e.data) := by
    simp [String.data_append]
  have hrev : (s ++ "." ++ e).data.reverse = e.data.reverse ++ ('.' :: s.data.reverse) := by
    rw [hcs]
    simp [List.reverse_append]
  have htw : ((s ++ "." ++ e).data.reverse.takeWhile (fun c => c ≠ '.')).length
      = e.data.length := by
    rw [hrev, takeWhile_append_cons _ _ _ _ ?_ (by simp)]
    · simp
    · intro c hc
      simp only [ne_eq, decide_eq_true_eq]
      exact fun hcdot => hd (hcdot ▸ List.mem_reverse.mp hc)
  have hlen : (s ++ "." ++ e).data.length = s.data.length + 1 + e.data.length := by
    rw [hcs]; simp; omega
  have hslen : 0 < s.data.length := List.length_pos.mpr hs
  have helen : 0 < e.data.length := List.length_pos.mpr he
  simp only [pyStemSuffix]
  rw [htw, hlen]
  have hne : ¬(e.data.length = s.data.length + 1 + e.data.length) := by omega
  rw [if_neg hne]
  have hi : s.data.length + 1 + e.data.length - 1 - e.data.length = s.data.length := by
    omega
  rw [hi]
  have hcond : 0 < s.data.length ∧ s.data.length < s.data.length + 1 + e.data.length - 1 := by
    omega
  rw [if_pos hcond]
  have htake : (s ++ "." ++ e).data.take s.data.length = s.data := by
    rw [hcs]; exact List.take_left _ _
  have hdrop : (s ++ "." ++ e).data.drop s.data.length = '.' :: e.data := by
    rw [hcs]; exact List.drop_left _ _
  rw [htake, hdrop]
  refine Prod.ext ?_ ?_
  · exact String.ext rfl
  · exact String.ext (by simp [String.data_append])

theorem pyStemSuffix_dotfile (name : String) (cs : List Char)
    (h1 : name.data = '.' :: cs) (h2 : '.' ∉ cs) :
    pyStemSuffix name = (name, "") := by
  have hrev : name.data.reverse = cs.reverse ++ ('.' :: []) := by
    rw [h1]; simp
  have htw : (name.data.reverse.takeWhile (fun c => c ≠ '.')).length = cs.length := by
    rw [hrev, takeWhile_append_cons _ _ _ _ ?_ (by simp)]
    · simp
    · intro c hc
      simp only [ne_eq, decide_eq_true_eq]
      exact fun hcdot => h2 (hcdot ▸ List.mem_reverse.mp hc)
  have hlen : name.data.length = cs.length + 1 := by rw [h1]; simp
  simp only [pyStemSuffix]
  rw [htw, hlen]
  have hne : ¬(cs.length = cs.length + 1) := by omega
  rw [if_neg hne]
  have hi : cs.length + 1 - 1 - cs.length = 0 := by omega
  rw [hi]
  simp

theorem extOf_dotfile (name : String) (cs : List Char)
    (h1 : name.data = '.' :: cs) (h2 : '.' ∉ cs) :
    extOf name = "_no_ext" := by
  unfold extOf pySuffix
  rw [pyStemSuffix_dotfile name cs h1 h2]
  simp

theorem toLower_ne_dot (c : Char) (h : c ≠ '.') : Char.toLower c ≠ '.' := by
  have hbound : ∀ m, m < 91 → 65 ≤ m → (Char.ofNat (m + 32)).toNat = m + 32 := by decide
  simp only [Char.toLower]
  split
  · next hcond =>
    simp only [ge_iff_le, Bool.and_eq_true, decide_eq_true_eq] at hcond
    intro habs
    have := congrArg Char.toNat habs
    rw [hbound c.toNat (by omega) hcond.1] at this
    have : c.toNat + 32 = 46 := this
    omega
  · exact h

theorem extOf_split (s e : String) (hs : s.data ≠ []) (he : e.data ≠ [])
    (hd : '.' ∉ e.data) :
    extOf (s ++ "." ++ e) = lowerStr e := by
  unfold extOf pySuffix
  rw [pyStemSuffix_split s e hs he hd]
  have hne : ("." ++ e : String) ≠ "" := by
    intro habs
    have := congrArg String.data habs
    simp [String.data_append] at this
  have hdata : ("." ++ e : String).data = '.' :: e.data := by simp [String.data_append]
  show (if ("." ++ e : String) = "" then "_no_ext"
    else String.mk ((("." ++ e : String).data.map Char.toLower).dropWhile
      (fun c => c = '.'))) = lowerStr e
  rw [if_neg hne, hdata]
  have hlow : Char.toLower '.' = '.' := by decide
  have hmap : ('.' :: e.data).map Char.toLower = '.' :: e.data.map Char.toLower := by
    simp [hlow]
  rw [hmap, List.dropWhile_cons]
  simp only [decide_True, if_true]
  have hdw : (e.data.map Char.toLower).dropWhile (fun c => c = '.') =
      e.data.map Char.toLower := by
    cases hedata : e.data with
    | nil => simp
    | cons c0 rest =>
      have hc0 : c0 ≠ '.' := fun habs => hd (by rw [hedata, habs]; exact List.mem_cons_self _ _)
      have hlow0 : Char.toLower c0 ≠ '.' := toLower_ne_dot c0 hc0
      simp only [List.map_cons, List.dropWhile_cons]
      simp [hlow0]
  rw [hdw]
  rfl

theorem extOf_eq_of_lower_suffix_eq (n1 n2 : String)
    (h : lowerStr (pySuffix n1) = lowerStr (pySuffix n2)) :
    extOf n1 = extOf n2 := by
  have hdata : (pySuffix n1).data.map Char.toLower = (pySuffix n2).data.map Char.toLower :=
    congrArg String.data h
  have hiff : pySuffix n1 = "" ↔ pySuffix n2 = "" := by
    constructor
    · intro h1
      refine String.ext ?_
      have : (pySuffix n2).data.map Char.toLower = [] := by
        rw [← hdata, h1]; rfl
      simpa using this
    · intro h2
      refine String.ext ?_
      have : (pySuffix n1).data.map Char.toLower = [] := by
        rw [hdata, h2]; rfl
      simpa using this
  unfold extOf
  by_cases h1 : pySuffix n1 = ""
  · simp [h1, hiff.mp h1]
  · have h2 : ¬(pySuffix n2 = "") := fun hx => h1 (hiff.mpr hx)
    simp only [h1, h2, if_false]
    rw [hdata]

/-! ### Walker lemmas -/

theorem unique_target_path_shape (existing : List FsPath) (target_dir : FsPath)
    (name : String) :
    ∃ nm, unique_target_path existing target_dir name = target_dir ++ [nm] := by
  rw [unique_target_path_eq]
  cases hfind : (List.range (existing.length + 1)).find?
      (fun k => !(decide (candPath target_dir (pyStem name) (pySuffix name) k
        ∈ existing))) with
  | none => exact ⟨_, rfl⟩
  | some k => exact ⟨_, rfl⟩

theorem snoc_inj_right {α} {l₁ l₂ : List α} {a b : α} (h : l₁ ++ [a] = l₂ ++ [b]) :
    a = b := by
  have := (List.append_inj' h rfl).2
  injection this

theorem take_append_pair {α} (l : List α) (a b : α) :
    (l ++ [a, b]).take (l.length + 1) = l ++ [a] := by
  have h : l ++ [a, b] = (l ++ [a]) ++ [b] := by simp
  have hlen : l.length + 1 = (l ++ [a]).length := by simp
  rw [h, hlen]
  exact List.take_left _ _

theorem placed_shape (O : Oracle) (resolve : FsPath → Option FsPath)
    (dest_root : FsPath) (move : Bool) :
    ∀ (entries : Entries) (src_dir : FsPath) (st : List FsPath) (s t : FsPath),
      (s, t) ∈ (walkEntries O resolve dest_root move src_dir entries st).placed →
      ∃ d name nm, s = d ++ [name] ∧ t = dest_root ++ [extOf name, nm] := by
  intro entries
  induction entries with
  | nil => intro src st s t h; simp [walkEntries] at h
  | other name rest ih =>
    intro src st s t h
    exact ih src st s t (by simpa [walkEntries] using h)
  | dir name children listable rest ih1 ih2 =>
    intro src st s t h
    cases hg : is_subpath resolve (src ++ [name]) dest_root with
    | true => exact ih2 src st s t (by simpa [walkEntries, hg] using h)
    | false =>
      cases listable with
      | true =>
        simp only [walkEntries, hg, Bool.false_eq_true, if_false, if_true] at h
        rcases List.mem_append.mp h with hh | hh
        · exact ih1 (src ++ [name]) st s t hh
        · exact ih2 src _ s t hh
      | false =>
        simp only [walkEntries, hg, Bool.false_eq_true, if_false] at h
        exact ih2 src _ s t h
  | file name rest ih =>
    intro src st s t h
    cases hmk : O.mkdirFails (dest_root ++ [extOf name]) with
    | true =>
      simp only [walkEntries, hmk, if_true] at h
      exact ih src st s t h
    | false =>
      cases hpf : O.placeFails (src ++ [name]) with
      | true =>
        simp only [walkEntries, hmk, hpf, Bool.false_eq_true, if_false, if_true] at h
        exact ih src _ s t h
      | false =>
        simp only [walkEntries, hmk, hpf, Bool.false_eq_true, if_false] at h
        rcases List.mem_cons.mp h with hh | hh
        · have hs : s = src ++ [name] := congrArg Prod.fst hh
          have ht : t = unique_target_path
              (if dest_root ++ [extOf name] ∈ st then st
               else st ++ [dest_root ++ [extOf name]])
              (dest_root ++ [extOf name]) name := congrArg Prod.snd hh
          obtain ⟨nm, hnm⟩ := unique_target_path_shape
            (if dest_root ++ [extOf name] ∈ st then st
             else st ++ [dest_root ++ [extOf name]])
            (dest_root ++ [extOf name]) name
          refine ⟨src, name, nm, hs, ?_⟩
          rw [ht, hnm]
          simp
        · exact ih src _ s t hh

theorem visited_guard_false (O : Oracle) (resolve : FsPath → Option FsPath)
    (dest_root : FsPath) (move : Bool) :
    ∀ (entries : Entries) (src_dir : FsPath) (st : List FsPath) (d : FsPath),
      d ∈ (walkEntries O resolve dest_root move src_dir entries st).visited →
      is_subpath resolve d dest_root = false := by
  intro entries
  induction entries with
  | nil => intro src st d h; simp [walkEntries] at h
  | other name rest ih =>
    intro src st d h
    exact ih src st d (by simpa [walkEntries] using h)
  | dir name children listable rest ih1 ih2 =>
    intro src st d h
    cases hg : is_subpath resolve (src ++ [name]) dest_root with
    | true => exact ih2 src st d (by simpa [walkEntries, hg] using h)
    | false =>
      cases listable with
      | true =>
        simp only [walkEntries, hg, Bool.false_eq_true, if_false, if_true] at h
        rcases List.mem_cons.mp h with rfl | hh
        · exact hg
        · rcases List.mem_append.mp hh with h1 | h2
          · exact ih1 (src ++ [name]) st d h1
          · exact ih2 src _ d h2
      | false =>
        simp only [walkEntries, hg, Bool.false_eq_true, if_false] at h
        rcases List.mem_cons.mp h with rfl | hh
        · exact hg
        · exact ih2 src _ d (by simpa using hh)
  | file name rest ih =>
    intro src st d h
    cases hmk : O.mkdirFails (dest_root ++ [extOf name]) with
    | true =>
      simp only [walkEntries, hmk, if_true] at h
      exact ih src st d h
    | false =>
      cases hpf : O.placeFails (src ++ [name]) with
      | true =>
        simp only [walkEntries, hmk, hpf, Bool.false_eq_true, if_false, if_true] at h
        exact ih src _ d h
      | false =>
        simp only [walkEntries, hmk, hpf, Bool.false_eq_true, if_false] at h
        exact ih src _ d h

/-- Claim C1: given the top-level precondition of `main` (the source is not
inside the destination), no directory whose enumeration `process_directory`
attempts — in particular no subdirectory discovered during the walk — is
the destination root or nested inside it by resolved-path ancestry: such
entries are skipped without recursion, so files already placed in the
destination are never re-classified in the same run. -/
theorem walker_never_enters_destination (O : Oracle) (resolve : FsPath → Option FsPath)
    (dest_root : FsPath) (move : Bool) (src_dir : FsPath) (children : Entries)
    (listable : Bool) (st : List FsPath) (d : FsPath)
    (hroot : is_subpath resolve src_dir dest_root = false)
    (hd : d ∈ (process_directory O resolve dest_root move src_dir children
        listable st).visited) :
    ¬ resolvedWithin resolve d dest_root := by
  have hfalse : is_subpath resolve d dest_root = false := by
    cases hl : listable with
    | true =>
      simp only [process_directory, hl, if_true] at hd
      rcases List.mem_cons.mp hd with rfl | hh
      · exact hroot
      · exact visited_guard_false O resolve dest_root move children src_dir st d hh
    | false =>
      simp only [process_directory, hl, Bool.false_eq_true, if_false] at hd
      rcases List.mem_singleton.mp hd with rfl
      exact hroot
  intro habs
  have htrue := (is_subpath_iff_resolvedWithin resolve d dest_root).mpr habs
  rw [hfalse] at htrue
  exact Bool.false_ne_true htrue

theorem walker_never_enters_destination_witness :
    (is_subpath (fun p => some p) ["s"] ["s", "dist"] = false) ∧
      (["s", "sub"] ∈ (process_directory cleanOracle (fun p => some p) ["s", "dist"]
        false ["s"]
        (Entries.dir "dist" Entries.nil true (Entries.dir "sub" Entries.nil true Entries.nil))
        true [["s"], ["s", "dist"]]).visited) ∧
      ¬ resolvedWithin (fun p => some p) ["s", "sub"] ["s", "dist"] :=
  ⟨by decide, by decide,
    walker_never_enters_destination cleanOracle (fun p => some p) ["s", "dist"] false ["s"]
      (Entries.dir "dist" Entries.nil true (Entries.dir "sub" Entries.nil true Entries.nil))
      true [["s"], ["s", "dist"]] ["s", "sub"] (by decide) (by decide)⟩

/-- Claim C6: a directory whose children cannot be listed contributes exactly
one error and zero files, with the existence state unchanged and nothing
placed; and when such a directory is met during a walk, the traversal of the
remaining sibling entries continues unchanged, merely adding that one error. -/
theorem unlistable_directory_one_error (O : Oracle) (resolve : FsPath → Option FsPath)
    (dest_root : FsPath) (move : Bool) (src_dir : FsPath) (children : Entries)
    (st : List FsPath) (listable : Bool) (h : listable = false) :
    process_directory O resolve dest_root move src_dir children listable st =
        ⟨0, 1, st, [src_dir], []⟩ ∧
      ∀ (src : FsPath) (name : String) (rest : Entries) (st' : List FsPath),
        is_subpath resolve (src ++ [name]) dest_root = false →
        walkEntries O resolve dest_root move src
            (Entries.dir name children listable rest) st' =
          ⟨(walkEntries O resolve dest_root move src rest st').files,
           1 + (walkEntries O resolve dest_root move src rest st').errors,
           (walkEntries O resolve dest_root move src rest st').st,
           (src ++ [name]) :: (walkEntries O resolve dest_root move src rest st').visited,
           (walkEntries O resolve dest_root move src rest st').placed⟩ := by
  subst h
  constructor
  · rfl
  · intro src name rest st' hg
    simp only [walkEntries, hg, Bool.false_eq_true, if_false, List.nil_append,
      Nat.zero_add, Nat.add_comm 1]

theorem unlistable_directory_one_error_witness :
    process_directory cleanOracle (fun p => some p) ["d"] false ["s"] Entries.nil
        false [] = ⟨0, 1, [], [["s"]], []⟩ :=
  (unlistable_directory_one_error cleanOracle (fun p => some p) ["d"] false ["s"]
    Entries.nil [] false rfl).1

theorem walk_state_extends (O : Oracle) (resolve : FsPath → Option FsPath)
    (dest_root : FsPath) :
    ∀ (entries : Entries) (src_dir : FsPath) (st : List FsPath),
      ∃ added, (walkEntries O resolve dest_root false src_dir entries st).st = st ++ added ∧
        ∀ p ∈ added, dest_root <+: p := by
  intro entries
  induction entries with
  | nil => intro src st; exact ⟨[], by simp [walkEntries], by simp⟩
  | other name rest ih =>
    intro src st
    simpa [walkEntries] using ih src st
  | dir name children listable rest ih1 ih2 =>
    intro src st
    cases hg : is_subpath resolve (src ++ [name]) dest_root with
    | true => simpa [walkEntries, hg] using ih2 src st
    | false =>
      cases listable with
      | true =>
        obtain ⟨a1, ha1, hp1⟩ := ih1 (src ++ [name]) st
        obtain ⟨a2, ha2, hp2⟩ :=
          ih2 src (walkEntries O resolve dest_root false (src ++ [name]) children st).st
        refine ⟨a1 ++ a2, ?_, ?_⟩
        · simp only [walkEntries, hg, Bool.false_eq_true, if_false, if_true]
          rw [ha2, ha1, List.append_assoc]
        · intro p hp
          rcases List.mem_append.mp hp with h | h
          · exact hp1 p h
          · exact hp2 p h
      | false =>
        obtain ⟨a2, ha2, hp2⟩ := ih2 src st
        refine ⟨a2, ?_, hp2⟩
        simp only [walkEntries, hg, Bool.false_eq_true, if_false]
        exact ha2
  | file name rest ih =>
    intro src st
    cases hmk : O.mkdirFails (dest_root ++ [extOf name]) with
    | true => simpa [walkEntries, hmk] using ih src st
    | false =>
      by_cases hmem : (dest_root ++ [extOf name]) ∈ st
      · cases hpf : O.placeFails (src ++ [name]) with
        | true =>
          obtain ⟨a2, ha2, hp2⟩ := ih src st
          refine ⟨a2, ?_, hp2⟩
          simp only [walkEntries, hmk, hpf, Bool.false_eq_true, if_false, if_true,
            if_pos hmem]
          exact ha2
        | false =>
          obtain ⟨nm, hnm⟩ := unique_target_path_shape st (dest_root ++ [extOf name]) name
          obtain ⟨a2, ha2, hp2⟩ :=
            ih src (st ++ [unique_target_path st (dest_root ++ [extOf name]) name])
          refine ⟨unique_target_path st (dest_root ++ [extOf name]) name :: a2, ?_, ?_⟩
          · simp only [walkEntries, hmk, hpf, Bool.false_eq_true, if_false, if_pos hmem]
            rw [ha2, List.append_assoc]
            rfl
          · intro p hp
            rcases List.mem_cons.mp hp with rfl | h
            · rw [hnm, List.append_assoc]
              exact List.prefix_append _ _
            · exact hp2 p h
      · cases hpf : O.placeFails (src ++ [name]) with
        | true =>
          obtain ⟨a2, ha2, hp2⟩ := ih src (st ++ [dest_root ++ [extOf name]])
          refine ⟨(dest_root ++ [extOf name]) :: a2, ?_, ?_⟩
          · simp only [walkEntries, hmk, hpf, Bool.false_eq_true, if_false, if_true,
              if_neg hmem]
            rw [ha2, List.append_assoc]
            rfl
          · intro p hp
            rcases List.mem_cons.mp hp with rfl | h
            · exact List.prefix_append _ _
            · exact hp2 p h
        | false =>
          obtain ⟨nm, hnm⟩ := unique_target_path_shape (st ++ [dest_root ++ [extOf name]])
            (dest_root ++ [extOf name]) name
          obtain ⟨a2, ha2, hp2⟩ :=
            ih src ((st ++ [dest_root ++ [extOf name]]) ++
              [unique_target_path (st ++ [dest_root ++ [extOf name]])
                (dest_root ++ [extOf name]) name])
          refine ⟨(dest_root ++ [extOf name]) ::
            unique_target_path (st ++ [dest_root ++ [extOf name]])
              (dest_root ++ [extOf name]) name :: a2, ?_, ?_⟩
          · simp only [walkEntries, hmk, hpf, Bool.false_eq_true, if_false, if_neg hmem]
            rw [ha2, List.append_assoc, List.append_assoc]
            rfl
          · intro p hp
            rcases List.mem_cons.mp hp with rfl | h
            · exact List.prefix_append _ _
            · rcases List.mem_cons.mp h with rfl | h2
              · rw [hnm, List.append_assoc]
                exact List.prefix_append _ _
              · exact hp2 p h2

/-- Claim C8: in copy mode the walk only ever extends the set of existing
paths — no path of the source tree is removed or replaced — and every path
it adds lies under the destination root: the walker reads the source and
writes exclusively inside the destination. -/
theorem copy_mode_frame (O : Oracle) (resolve : FsPath → Option FsPath)
    (dest_root : FsPath) (src_dir : FsPath) (children : Entries) (listable : Bool)
    (st : List FsPath) (move : Bool) (hmove : move = false) :
    ∃ added, (process_directory O resolve dest_root move src_dir children
        listable st).st = st ++ added ∧ ∀ p ∈ added, dest_root <+: p := by
  subst hmove
  cases hl : listable with
  | true =>
    obtain ⟨added, ha, hp⟩ := walk_state_extends O resolve dest_root children src_dir st
    exact ⟨added, by simpa [process_directory] using ha, hp⟩
  | false => exact ⟨[], by simp [process_directory], by simp⟩

theorem copy_mode_frame_witness :
    ∃ added, (process_directory cleanOracle (fun p => some p) ["dist"] false ["s"]
        (Entries.file "a.txt" Entries.nil) true [["s"], ["dist"]]).st
      = [["s"], ["dist"]] ++ added ∧ ∀ p ∈ added, ["dist"] <+: p :=
  copy_mode_frame cleanOracle (fun p => some p) ["dist"] ["s"]
    (Entries.file "a.txt" Entries.nil) true [["s"], ["dist"]] false rfl

theorem unique_target_path_find_isSome (existing : List FsPath) (target_dir : FsPath)
    (base suffix : String) :
    ((List.range (existing.length + 1)).find?
      (fun k => !(decide (candPath target_dir base suffix k ∈ existing)))).isSome = true := by
  rcases exists_cand_notin existing target_dir base suffix with ⟨k0, hlt, hnot⟩
  cases hfind : (List.range (existing.length + 1)).find?
      (fun k => !(decide (candPath target_dir base suffix k ∈ existing))) with
  | some k => rfl
  | none =>
    exfalso
    have hall := List.find?_eq_none.mp hfind
    have := hall k0 (List.mem_range.mpr hlt)
    simp [hnot] at this

/-- Claim C7: the bucket name is a pure, case-insensitive function of a
file's extension: two names whose suffixes agree after case folding get the
same bucket name, and any two files placed during the same run with such
names land under the same single bucket directory of the destination root,
regardless of their nesting depth in the source tree. -/
theorem bucket_pure_case_insensitive (n1 n2 : String)
    (h : lowerStr (pySuffix n1) = lowerStr (pySuffix n2)) :
    extOf n1 = extOf n2 ∧
      ∀ (O : Oracle) (resolve : FsPath → Option FsPath) (dest_root : FsPath)
        (move : Bool) (src_dir : FsPath) (entries : Entries) (st : List FsPath)
        (d1 d2 t1 t2 : FsPath),
        (d1 ++ [n1], t1) ∈ (walkEntries O resolve dest_root move src_dir entries st).placed →
        (d2 ++ [n2], t2) ∈ (walkEntries O resolve dest_root move src_dir entries st).placed →
        t1.take (dest_root.length + 1) = t2.take (dest_root.length + 1) := by
  have hext := extOf_eq_of_lower_suffix_eq n1 n2 h
  refine ⟨hext, ?_⟩
  intro O resolve dest_root move src_dir entries st d1 d2 t1 t2 h1 h2
  obtain ⟨e1, m1, nm1, hs1, ht1⟩ := placed_shape O resolve dest_root move entries src_dir st _ _ h1
  obtain ⟨e2, m2, nm2, hs2, ht2⟩ := placed_shape O resolve dest_root move entries src_dir st _ _ h2
  have hn1 : n1 = m1 := snoc_inj_right hs1
  have hn2 : n2 = m2 := snoc_inj_right hs2
  rw [ht1, ht2, ← hn1, ← hn2, take_append_pair, take_append_pair, hext]

theorem bucket_pure_case_insensitive_witness :
    (lowerStr (pySuffix "B.TXT") = lowerStr (pySuffix "a.txt")) ∧
      (["dist", "txt", "B.TXT"] : FsPath).take 2 = (["dist", "txt", "a.txt"] : FsPath).take 2 :=
  ⟨by decide,
    (bucket_pure_case_insensitive "B.TXT" "a.txt" (by decide)).2 cleanOracle
      (fun p => some p) ["dist"] false ["s"]
      (Entries.file "B.TXT" (Entries.dir "n" (Entries.file "a.txt" Entries.nil) true Entries.nil))
      [["s"], ["dist"]] ["s"] ["s", "n"] ["dist", "txt", "B.TXT"] ["dist", "txt", "a.txt"]
      (by decide) (by decide)⟩

/-- Claim C9: a file name starting with a dot and containing no other dot
(such as ".gitignore") is treated as having no extension: its bucket is the
"_no_ext" sentinel, and any placement of such a file lands directly under
the destination's "_no_ext" subdirectory. -/
theorem dotfile_no_ext_bucket (name : String) (cs : List Char)
    (h1 : name.data = '.' :: cs) (h2 : '.' ∉ cs) :
    extOf name = "_no_ext" ∧
      ∀ (O : Oracle) (resolve : FsPath → Option FsPath) (dest_root : FsPath)
        (move : Bool) (src_dir : FsPath) (entries : Entries) (st : List FsPath)
        (d t : FsPath),
        (d ++ [name], t) ∈ (walkEntries O resolve dest_root move src_dir entries st).placed →
        t.take (dest_root.length + 1) = dest_root ++ ["_no_ext"] := by
  have hext := extOf_dotfile name cs h1 h2
  refine ⟨hext, ?_⟩
  intro O resolve dest_root move src_dir entries st d t hmem
  obtain ⟨e, m, nm, hs, ht⟩ := placed_shape O resolve dest_root move entries src_dir st _ _ hmem
  have hm : name = m := snoc_inj_right hs
  rw [ht, ← hm, take_append_pair, hext]

theorem dotfile_no_ext_bucket_witness :
    extOf ".gitignore" = "_no_ext" ∧
      (["dist", "_no_ext", ".gitignore"] : FsPath).take 2 = ["dist"] ++ ["_no_ext"] :=
  ⟨(dotfile_no_ext_bucket ".gitignore" "gitignore".data (by decide) (by decide)).1,
    (dotfile_no_ext_bucket ".gitignore" "gitignore".data (by decide) (by decide)).2
      cleanOracle (fun p => some p) ["dist"] false ["s"]
      (Entries.file ".gitignore" Entries.nil) [["s"], ["dist"]] ["s"]
      ["dist", "_no_ext", ".gitignore"] (by decide)⟩

/-- Claim C10: for a name of the form `stem ++ "." ++ ext` whose final
extension contains no dot (the stem may itself contain further dots, as in
"archive.tar.gz"), only the final suffix determines the bucket — the bucket
name is the lowercased final extension — and collision renaming inserts the
" (N)" marker immediately before that final suffix, leaving the earlier
dotted portions in the stem. -/
theorem multidot_final_suffix (s e : String) (hs : s.data ≠ []) (he : e.data ≠ [])
    (hd : '.' ∉ e.data) :
    extOf (s ++ "." ++ e) = lowerStr e ∧
      ∀ dir : FsPath,
        unique_target_path [dir ++ [s ++ "." ++ e]] dir (s ++ "." ++ e) =
          dir ++ [s ++ " (1)" ++ "." ++ e] := by
  refine ⟨extOf_split s e hs he hd, ?_⟩
  intro dir
  have hsplit := pyStemSuffix_split s e hs he hd
  have hstem : pyStem (s ++ "." ++ e) = s := by unfold pyStem; rw [hsplit]
  have hsuf : pySuffix (s ++ "." ++ e) = "." ++ e := by unfold pySuffix; rw [hsplit]
  have hc0 : candPath dir (pyStem (s ++ "." ++ e)) (pySuffix (s ++ "." ++ e)) 0
      = dir ++ [s ++ "." ++ e] := by
    unfold candPath candName
    rw [hstem, hsuf, String.append_assoc]
  have hc1 : candPath dir (pyStem (s ++ "." ++ e)) (pySuffix (s ++ "." ++ e)) 1
      = dir ++ [s ++ " (1)" ++ "." ++ e] := by
    show dir ++ [pyStem (s ++ "." ++ e) ++ " (" ++ natToDec 1 ++ ")"
        ++ pySuffix (s ++ "." ++ e)] = dir ++ [s ++ " (1)" ++ "." ++ e]
    rw [hstem, hsuf, show natToDec 1 = "1" from rfl]
    congr 2
    apply String.ext
    simp [String.data_append]
  have hnotmem : candPath dir (pyStem (s ++ "." ++ e)) (pySuffix (s ++ "." ++ e)) 1
      ∉ [dir ++ [s ++ "." ++ e]] := by
    rw [hc1]
    simp only [List.mem_singleton]
    intro habs
    have hname := List.append_cancel_left habs
    have hstr : (s ++ " (1)" ++ "." ++ e : String) = s ++ "." ++ e := by
      injection hname
    have hlen := congrArg (fun x => x.data.length) hstr
    simp at hlen
    omega
  have hlt : ∀ j, j < 1 → candPath dir (pyStem (s ++ "." ++ e))
      (pySuffix (s ++ "." ++ e)) j ∈ [dir ++ [s ++ "." ++ e]] := by
    intro j hj
    have hj0 : j = 0 := by omega
    subst hj0
    rw [hc0]
    exact List.mem_singleton_self _
  have hmain := unique_target_path_first_free [dir ++ [s ++ "." ++ e]] dir
    (s ++ "." ++ e) 1 hnotmem hlt
  rw [hmain.1, hc1]

theorem multidot_final_suffix_witness :
    ("archive.tar" ++ "." ++ "gz" : String) = "archive.tar.gz" ∧
      extOf ("archive.tar" ++ "." ++ "gz") = lowerStr "gz" ∧
      unique_target_path [["d"] ++ ["archive.tar" ++ "." ++ "gz"]] ["d"]
          ("archive.tar" ++ "." ++ "gz")
        = ["d"] ++ ["archive.tar" ++ " (1)" ++ "." ++ "gz"] :=
  ⟨by decide,
    (multidot_final_suffix "archive.tar" "gz" (by decide) (by decide) (by decide)).1,
    (multidot_final_suffix "archive.tar" "gz" (by decide) (by decide) (by decide)).2 ["d"]⟩

theorem is_subpath_id (q dest : FsPath) :
    is_subpath (fun p => some p) q dest = true ↔ dest <+: q := by
  rw [is_subpath_iff_resolvedWithin]
  unfold resolvedWithin
  constructor
  · rintro ⟨c, p, hc, hp, hpre⟩
    have hcq : q = c := Option.some.inj hc
    have hpd : dest = p := Option.some.inj hp
    rw [hcq, hpd]
    exact hpre
  · intro h
    exact ⟨q, dest, rfl, rfl, h⟩

theorem prefix_snoc_cases {α} {p l : List α} {a : α} (h : p <+: l ++ [a]) :
    p = l ++ [a] ∨ p <+: l := by
  have hlen : p.length ≤ l.length + 1 := by simpa using h.length_le
  rcases Nat.lt_or_ge p.length (l.length + 1) with hlt | hge
  · right
    have hp := List.prefix_iff_eq_take.mp h
    have hle : p.length ≤ l.length := by omega
    rw [List.take_append_of_le_length hle] at hp
    rw [hp]
    exact ⟨l.drop p.length, List.take_append_drop _ _⟩
  · left
    exact h.eq_of_length (by simp; omega)

theorem countFilesOutside_of_prefix (dest : FsPath) :
    ∀ (entries : Entries) (src_dir : FsPath), dest <+: src_dir →
      countFilesOutside dest src_dir entries = 0 := by
  intro entries
  induction entries with
  | nil => intro src h; rfl
  | file name rest ih =>
    intro src h
    have hpre : dest.isPrefixOf (src ++ [name]) = true :=
      List.isPrefixOf_iff_prefix.mpr (h.trans (List.prefix_append _ _))
    simp [countFilesOutside, hpre, ih src h]
  | dir name children listable rest ih1 ih2 =>
    intro src h
    simp [countFilesOutside, ih1 (src ++ [name]) (h.trans (List.prefix_append _ _)),
      ih2 src h]
  | other name rest ih =>
    intro src h
    simp [countFilesOutside, ih src h]

theorem walk_count (O : Oracle) (hm : ∀ p, O.mkdirFails p = false)
    (hp : ∀ p, O.placeFails p = false) (dest_root : FsPath) (move : Bool) :
    ∀ (entries : Entries) (src_dir : FsPath) (st : List FsPath),
      allListable entries = true →
      ¬ dest_root <+: src_dir →
      dest_root ∉ filePathsIn src_dir entries →
      (walkEntries O (fun p => some p) dest_root move src_dir entries st).files
          = countFilesOutside dest_root src_dir entries ∧
        (walkEntries O (fun p => some p) dest_root move src_dir entries st).errors = 0 := by
  intro entries
  induction entries with
  | nil => intro src st _ _ _; exact ⟨rfl, rfl⟩
  | other name rest ih =>
    intro src st hall hroot hfp
    have hall' : allListable rest = true := hall
    have hfp' : dest_root ∉ filePathsIn src rest := hfp
    simpa [walkEntries, countFilesOutside] using ih src st hall' hroot hfp'
  | dir name children listable rest ih1 ih2 =>
    intro src st hall hroot hfp
    simp only [allListable, Bool.and_eq_true] at hall
    obtain ⟨⟨hl, hallc⟩, hallr⟩ := hall
    have hfpc : dest_root ∉ filePathsIn (src ++ [name]) children := by
      intro hmem
      exact hfp (by simp only [filePathsIn, List.mem_append]; exact Or.inl hmem)
    have hfpr : dest_root ∉ filePathsIn src rest := by
      intro hmem
      exact hfp (by simp only [filePathsIn, List.mem_append]; exact Or.inr hmem)
    subst hl
    cases hg : is_subpath (fun p => some p) (src ++ [name]) dest_root with
    | true =>
      have hpre : dest_root <+: (src ++ [name]) := (is_subpath_id _ _).mp hg
      have hzero : countFilesOutside dest_root (src ++ [name]) children = 0 :=
        countFilesOutside_of_prefix dest_root children (src ++ [name]) hpre
      obtain ⟨hf, he⟩ := ih2 src st hallr hroot hfpr
      constructor
      · simp only [walkEntries, hg, if_true, countFilesOutside, hzero, Nat.zero_add]
        exact hf
      · simp only [walkEntries, hg, if_true]
        exact he
    | false =>
      have hnpre : ¬ dest_root <+: (src ++ [name]) := by
        intro hh
        rw [(is_subpath_id _ _).mpr hh] at hg
        simp at hg
      obtain ⟨hf1, he1⟩ := ih1 (src ++ [name]) st hallc hnpre hfpc
      obtain ⟨hf2, he2⟩ := ih2 src
        (walkEntries O (fun p => some p) dest_root move (src ++ [name]) children st).st
        hallr hroot hfpr
      constructor
      · simp only [walkEntries, hg, Bool.false_eq_true, if_false, if_true,
          countFilesOutside]
        rw [hf1, hf2]
      · simp only [walkEntries, hg, Bool.false_eq_true, if_false, if_true]
        rw [he1, he2]
  | file name rest ih =>
    intro src st hall hroot hfp
    have hfpr : dest_root ∉ filePathsIn src rest := by
      intro hmem
      exact hfp (by simp only [filePathsIn]; exact List.mem_cons_of_mem _ hmem)
    have hne : dest_root ≠ src ++ [name] := by
      intro hh
      exact hfp (by simp only [filePathsIn]; exact hh ▸ List.mem_cons_self _ _)
    have hcnt : dest_root.isPrefixOf (src ++ [name]) = false := by
      cases hv : dest_root.isPrefixOf (src ++ [name]) with
      | false => rfl
      | true =>
        exfalso
        have hpre := List.isPrefixOf_iff_prefix.mp hv
        rcases prefix_snoc_cases hpre with h | h
        · exact hne h
        · exact hroot h
    constructor
    · simp only [walkEntries, hm, hp, Bool.false_eq_true, if_false,
        countFilesOutside, hcnt, Nat.zero_add]
      rw [(ih src _ hall hroot hfpr).1]
      omega
    · simp only [walkEntries, hm, hp, Bool.false_eq_true, if_false]
      exact (ih src _ hall hroot hfpr).2

/-- Claim C3: for a source tree of regular files and subdirectories in which
every directory can be enumerated and no per-file operation fails
(no placement or enumeration errors), run from a source root that is not
inside the destination and whose file set does not claim the destination
root's own path, the files count returned by the walk equals the number of
regular files of the tree not inside the destination subtree, and the
errors count is zero. -/
theorem walk_files_count_complete (O : Oracle) (dest_root src_dir : FsPath)
    (children : Entries) (st : List FsPath) (move : Bool)
    (hm : ∀ p, O.mkdirFails p = false) (hp : ∀ p, O.placeFails p = false)
    (hall : allListable children = true)
    (hroot : ¬ dest_root <+: src_dir)
    (hfp : dest_root ∉ filePathsIn src_dir children) :
    (process_directory O (fun p => some p) dest_root move src_dir children
        true st).files = countFilesOutside dest_root src_dir children ∧
      (process_directory O (fun p => some p) dest_root move src_dir children
        true st).errors = 0 := by
  have h := walk_count O hm hp dest_root move children src_dir st hall hroot hfp
  simpa [process_directory] using h

theorem walk_files_count_complete_witness :
    countFilesOutside ["s", "dist"] ["s"]
        (Entries.file "a.txt" (Entries.dir "dist" Entries.nil true
          (Entries.dir "n" (Entries.file "c.md" Entries.nil) true Entries.nil))) = 2 ∧
      ((process_directory cleanOracle (fun p => some p) ["s", "dist"] false ["s"]
          (Entries.file "a.txt" (Entries.dir "dist" Entries.nil true
            (Entries.dir "n" (Entries.file "c.md" Entries.nil) true Entries.nil)))
          true [["s"], ["s", "dist"]]).files
        = countFilesOutside ["s", "dist"] ["s"]
          (Entries.file "a.txt" (Entries.dir "dist" Entries.nil true
            (Entries.dir "n" (Entries.file "c.md" Entries.nil) true Entries.nil))) ∧
        (process_directory cleanOracle (fun p => some p) ["s", "dist"] false ["s"]
          (Entries.file "a.txt" (Entries.dir "dist" Entries.nil true
            (Entries.dir "n" (Entries.file "c.md" Entries.nil) true Entries.nil)))
          true [["s"], ["s", "dist"]]).errors = 0) :=
  ⟨by decide,
    walk_files_count_complete cleanOracle ["s", "dist"] ["s"]
      (Entries.file "a.txt" (Entries.dir "dist" Entries.nil true
        (Entries.dir "n" (Entries.file "c.md" Entries.nil) true Entries.nil)))
      [["s"], ["s", "dist"]] false (fun _ => rfl) (fun _ => rfl) (by decide)
      (fun h => by simpa using h.length_le) (by decide)⟩

/-- Claim C4 counterexample: with the destination (`["s","d"]`) strictly
nested inside the source (`["s"]`), the identity resolver, an existing
source directory and a perfectly healthy run, `main` does not exit with
code 2 as the claim requires for "destination nested inside/equal to
source": the guard of line 126 tests the opposite nesting
(`is_subpath(src, dest)`, source inside destination), so the run proceeds
and exits 0. -/
theorem main_exit_code_counterexample :
    ((["s"] : FsPath) <+: ["s", "d"] ∧ (["s"] : FsPath) ≠ ["s", "d"]) ∧
      (mainRun true true false cleanOracle (fun p => some p) ["s"] ["s", "d"]
        Entries.nil true false [["s"]]).1 = 0 :=
  ⟨⟨⟨["d"], rfl⟩, by decide⟩, by decide⟩

/-- Claim C4 (amended): `main` exits 2 exactly on the code's fatal
preconditions — source missing, source not a directory, source nested
inside or equal to the destination by resolved-path ancestry (the code
guards this direction, not destination-inside-source), or failure to create
the destination — and every fatal path returns before the walk with the
filesystem state untouched; otherwise the run completes and exits 0 when
the walk reports zero errors and 1 when it reports at least one. -/
theorem main_exit_code_characterization (srcExists srcIsDir mkdirDestFails : Bool)
    (O : Oracle) (resolve : FsPath → Option FsPath) (src dest : FsPath)
    (children : Entries) (listable : Bool) (move : Bool) (st : List FsPath) :
    ((mainRun srcExists srcIsDir mkdirDestFails O resolve src dest children
        listable move st).1 = 2 ↔
      (srcExists = false ∨ srcIsDir = false ∨ resolvedWithin resolve src dest ∨
        mkdirDestFails = true)) ∧
    ((mainRun srcExists srcIsDir mkdirDestFails O resolve src dest children
        listable move st).1 = 2 →
      (mainRun srcExists srcIsDir mkdirDestFails O resolve src dest children
        listable move st).2 = st) ∧
    (srcExists = true → srcIsDir = true → ¬ resolvedWithin resolve src dest →
      mkdirDestFails = false →
      (mainRun srcExists srcIsDir mkdirDestFails O resolve src dest children
          listable move st).1 =
        if (process_directory O resolve dest move src children listable
            (if dest ∈ st then st else st ++ [dest])).errors = 0 then 0 else 1) := by
  cases srcExists with
  | false =>
    refine ⟨?_, ?_, ?_⟩
    · simp [mainRun]
    · intro _; simp [mainRun]
    · intro h; simp at h
  | true =>
    cases srcIsDir with
    | false =>
      refine ⟨?_, ?_, ?_⟩
      · simp [mainRun]
      · intro _; simp [mainRun]
      · intro _ h; simp at h
    | true =>
      cases hsub : is_subpath resolve src dest with
      | true =>
        have hrw : resolvedWithin resolve src dest :=
          (is_subpath_iff_resolvedWithin resolve src dest).mp hsub
        refine ⟨?_, ?_, ?_⟩
        · simp [mainRun, hsub, hrw]
        · intro _; simp [mainRun, hsub]
        · intro _ _ hn _; exact absurd hrw hn
      | false =>
        have hnrw : ¬ resolvedWithin resolve src dest := fun hh => by
          rw [(is_subpath_iff_resolvedWithin resolve src dest).mpr hh] at hsub
          simp at hsub
        cases mkdirDestFails with
        | true =>
          refine ⟨?_, ?_, ?_⟩
          · simp [mainRun, hsub]
          · intro _; simp [mainRun, hsub]
          · intro _ _ _ h; simp at h
        | false =>
          refine ⟨?_, ?_, ?_⟩
          · by_cases herr : (process_directory O resolve dest move src children
                listable (if dest ∈ st then st else st ++ [dest])).errors = 0
            · simp [mainRun, hsub, hnrw, herr]
            · simp [mainRun, hsub, hnrw, herr]
          · intro h2
            exfalso
            by_cases herr : (process_directory O resolve dest move src children
                listable (if dest ∈ st then st else st ++ [dest])).errors = 0
            · simp [mainRun, hsub, herr] at h2
            · simp [mainRun, hsub, herr] at h2
          · intro _ _ _ _
            by_cases herr : (process_directory O resolve dest move src children
                listable (if dest ∈ st then st else st ++ [dest])).errors = 0
            · simp [mainRun, hsub, herr]
            · simp [mainRun, hsub, herr]

theorem main_exit_code_characterization_witness :
    (mainRun false true false cleanOracle (fun p => some p) ["s"] ["d"]
      Entries.nil true false []).1 = 2 :=
  (main_exit_code_characterization false true false cleanOracle (fun p => some p)
    ["s"] ["d"] Entries.nil true false []).1.mpr (Or.inl rfl)

end SortByExt
